import Mathlib

/-!
Shallow embedding of the IntelligentRAGSystem core (src/src/document_processor.py,
src/src/embedding_manager.py, src/src/rag_system.py) and proofs about the claims
of its specification.

Text is modelled as `List Char` (Python `str` is a sequence of characters; the
operations used by the code — `split`, slicing, `strip`, concatenation, `len` —
are character-wise).  Stateful components (the Chroma collection) are modelled
as explicit values threaded through the functions.  External collaborators
(the Docling converter, the Chroma vector-search engine, the Ollama language
model, Python `set` iteration order) are modelled as oracle parameters; their
interface semantics follows the specification of the external boundaries
(section 6 of the spec): the vector-store write operation is an upsert keyed
by id.
-/

namespace RAG

/-! ### Python string primitives used by the code -/

/-- Python `str.split('. ')` on character lists: split on each non-overlapping
occurrence of the two-character separator `". "`, scanning left to right.
`"".split('. ') = [""]`. -/
def pySplitAux : List Char → List Char → List (List Char)
  | [], acc => [acc.reverse]
  | [c], acc => [(c :: acc).reverse]
  | c1 :: c2 :: rest, acc =>
      if c1 = '.' ∧ c2 = ' ' then acc.reverse :: pySplitAux rest []
      else pySplitAux (c2 :: rest) (c1 :: acc)

/-- Python `content.split('. ')`. -/
def pySplit (l : List Char) : List (List Char) := pySplitAux l []

/-- Python `str.lstrip()`: drop leading whitespace. -/
def lstrip (l : List Char) : List Char := l.dropWhile Char.isWhitespace

/-- Python `str.rstrip()`: drop trailing whitespace. -/
def rstrip (l : List Char) : List Char := (l.reverse.dropWhile Char.isWhitespace).reverse

/-- Python `str.strip()`: drop leading and trailing whitespace. -/
def pyStrip (l : List Char) : List Char := lstrip (rstrip l)

/-- Python slice `s[-n:]` for `0 < n`: the last `n` characters
(the whole string when it is shorter than `n`). -/
def lastN (n : Nat) (l : List Char) : List Char := l.drop (l.length - n)

/-- The separator `". "` appended after every accumulated sentence. -/
def dotSpace : List Char := ['.', ' ']

/-! ### Dictionaries (Python `dict` with string keys, insertion-ordered) -/

/-- First-match association lookup, Python `d[k]` / `d.get(k)`. -/
def lookupS (k : String) : List (String × String) → Option String
  | [] => none
  | (k2, v) :: t => if k2 = k then some v else lookupS k t

/-- Python `d.get(k, dflt)`. -/
def getS (m : List (String × String)) (k dflt : String) : String :=
  match lookupS k m with
  | some v => v
  | none => dflt

/-- Python `d[k] = v`: replace the value in place if the key exists,
otherwise append the pair (insertion order). -/
def setS (k v : String) : List (String × String) → List (String × String)
  | [] => [(k, v)]
  | (k2, v2) :: t => if k2 = k then (k2, v) :: t else (k2, v2) :: setS k v t

/-- Python `str(dict)`: renders the whole dictionary as one opaque string.
The exact rendering of values is irrelevant to every claim; what matters is
that the result is a single string stored under one metadata key, so none of
the dictionary's own keys (in particular `last_modified`) is a top-level key
of the stored metadata. -/
def pyStrOfDict (m : List (String × String)) : String :=
  "\x7b" ++ String.intercalate ", " (m.map (fun p => "\x27" ++ p.1 ++ "\x27: \x27" ++ p.2 ++ "\x27")) ++ "\x7d"

/-! ### Chunker (document_processor.py, `DoclingProcessor.create_chunks`) -/

/-- A document as produced by `process_document` (content plus structural
metadata); `rag_system.py` later adds the `last_modified` fingerprint to the
metadata before chunking. -/
structure Document where
  filename : String
  content : List Char
  metadata : List (String × String)
deriving DecidableEq

/-- A chunk record as built by `create_chunks`. -/
structure Chunk where
  id : String
  content : List Char
  source : String
  metadata : List (String × String)
deriving DecidableEq

/-- `f"{filename}_chunk_{n}"`. -/
def chunkId (fn : String) (n : Nat) : String := fn ++ "_chunk_" ++ toString n

/-- The overlap seed: Python
`current_chunk[-overlap:] if len(current_chunk) > overlap else current_chunk`.
Note the Python quirk: when `overlap = 0` the slice `s[-0:]` is the whole
string, not the empty string. -/
def ovSeed (ov : Nat) (cc : List Char) : List Char :=
  if ov < cc.length then (if ov = 0 then cc else lastN ov cc) else cc

/-- The sentence-accumulation loop of `create_chunks` (lines 127-160 of
document_processor.py): state is the remaining sentences, the running buffer
`current_chunk` and the chunks emitted so far. -/
def chunkLoop (fn : String) (md : List (String × String)) (K ov : Nat) :
    List (List Char) → List Char → List Chunk → List Chunk
  | [], cc, acc =>
      if cc = [] then acc
      else acc ++ [⟨chunkId fn acc.length, pyStrip cc, fn, md⟩]
  | s :: rest, cc, acc =>
      if cc.length + s.length < K then
        chunkLoop fn md K ov rest (cc ++ s ++ dotSpace) acc
      else
        chunkLoop fn md K ov rest (ovSeed ov cc ++ s ++ dotSpace)
          (if cc = [] then acc
           else acc ++ [⟨chunkId fn acc.length, pyStrip cc, fn, md⟩])

/-- `DoclingProcessor.create_chunks(document_data, chunk_size, overlap)`.
The call sites in rag_system.py use the defaults `chunk_size = 1000`,
`overlap = 200`. -/
def create_chunks (d : Document) (chunk_size overlap : Nat) : List Chunk :=
  chunkLoop d.filename d.metadata chunk_size overlap (pySplit d.content) [] []

/-! ### Vector index (embedding_manager.py, `EmbeddingManager` over Chroma)

The Chroma collection is modelled as a list of stored entries.  The engine
itself is an external collaborator; per the spec's external-interface section
its write operation is `upsert(id, text, metadata)` keyed by `id`, so a write
with an existing id overwrites that entry in place and a write with a fresh id
appends. -/

/-- One stored entry of the collection: document text plus the flat metadata
dictionary that `add_chunks` builds for it. -/
structure Entry where
  id : String
  doc : List Char
  meta : List (String × String)
deriving DecidableEq

/-- Modelled from the spec (section 6, vector-index boundary): the engine's
`upsert(id, text, metadata)` — overwrite in place if the id is present,
append otherwise. -/
def upsertOne (idx : List Entry) (e : Entry) : List Entry :=
  if e.id ∈ idx.map Entry.id then idx.map (fun x => if x.id = e.id then e else x)
  else idx ++ [e]

/-- Upsert a batch of entries in order. -/
def addAll (idx : List Entry) (es : List Entry) : List Entry := es.foldl upsertOne idx

/-- The batched write path of `add_chunks` (batch_size = 10): add the entries
in groups of ten, in order. -/
def addBatches (idx : List Entry) (es : List Entry) : List Entry :=
  if es = [] then idx else addBatches (addAll idx (es.take 10)) (es.drop 10)
termination_by es.length
decreasing_by
  rename_i h
  have h2 : 0 < es.length := List.length_pos.mpr h
  simp only [List.length_drop]
  omega

/-- The flat metadata `add_chunks` stores with each chunk (lines 75-79 of
embedding_manager.py): keys `source`, `chunk_id`, and the whole chunk-level
metadata dictionary stringified under the single key `metadata`. -/
def entryOfChunk (c : Chunk) : Entry :=
  ⟨c.id, c.content, [("source", c.source), ("chunk_id", c.id), ("metadata", pyStrOfDict c.metadata)]⟩

/-- `EmbeddingManager.add_chunks(chunks)`: returns `False` without touching the
index when the chunk list is empty; otherwise writes every chunk (batched in
groups of 10 when there are more than 10 chunks and a progress callback is
installed, in one call otherwise) and returns `True`.  `has_cb` says whether a
progress callback is installed. -/
def add_chunks (has_cb : Bool) (idx : List Entry) (chunks : List Chunk) : Bool × List Entry :=
  if chunks = [] then (false, idx)
  else if 10 < chunks.length ∧ has_cb = true then (true, addBatches idx (chunks.map entryOfChunk))
  else (true, addAll idx (chunks.map entryOfChunk))

/-- `collection.get(where={"source": filename})['ids']`: the ids of the entries
whose metadata `source` equals the given filename. -/
def matchingIds (filename : String) (idx : List Entry) : List String :=
  (idx.filter (fun e => decide (lookupS "source" e.meta = some filename))).map Entry.id

/-- `SmartRAGSystem._remove_old_chunks(filename)` (rag_system.py lines
111-123): fetch the ids of the entries whose `source` is the filename and, if
there are any, delete those ids from the collection. -/
def remove_old_chunks (filename : String) (idx : List Entry) : List Entry :=
  if matchingIds filename idx = [] then idx
  else idx.filter (fun e => decide (e.id ∉ matchingIds filename idx))

/-- Result of `EmbeddingManager.get_collection_stats`. -/
structure Stats where
  total_chunks : Nat
  unique_sources : Nat
  sources : List String
  status : String
deriving DecidableEq

/-- Helper for `dedupFirst`: keep the elements not seen yet, first
occurrences first. -/
def dedupAux (seen : List String) : List String → List String
  | [] => []
  | x :: t => if x ∈ seen then dedupAux seen t else x :: dedupAux (x :: seen) t

/-- Python `list(set(xs))` has no specified order; for the advisory
`sources` field of the stats we enumerate first occurrences.  No claim
depends on this order. -/
def dedupFirst (l : List String) : List String := dedupAux [] l

/-- `EmbeddingManager.get_collection_stats()`: counts, plus the distinct
sources found in a sample of at most 100 entries. -/
def get_collection_stats (idx : List Entry) : Stats :=
  let count := idx.length
  if count = 0 then ⟨0, 0, [], "Empty"⟩
  else
    let sample := idx.take (min 100 count)
    let srcs := dedupFirst (sample.map (fun e => getS e.meta "source" ""))
    ⟨count, srcs.length, srcs, "Ready"⟩

/-! ### Retrieval and answering (rag_system.py, `SmartRAGSystem.ask_question`)

The nearest-neighbour engine and the language model are external oracles:
`retr` maps a query and a result count to the engine's ranked hits, `llm` maps
a message list to either a completion (`Except.ok`) or a raised exception
rendered as a string (`Except.error`), which the code catches. -/

/-- One ranked hit returned by `collection.query`. -/
structure EngineHit where
  id : String
  doc : List Char
  meta : List (String × String)
  dist : Rat
deriving DecidableEq

/-- A retrieved chunk as rebuilt by `find_similar_chunks`. -/
structure RChunk where
  id : String
  content : List Char
  source : String
  similarity_score : Rat
  metadata : List (String × String)
deriving DecidableEq

/-- A chat message. -/
structure LLMMsg where
  role : String
  content : String
deriving DecidableEq

/-- `MAX_RELEVANT_CHUNKS` from config/settings.py. -/
def MAX_RELEVANT_CHUNKS : Nat := 5

/-- `EmbeddingManager.find_similar_chunks(query, top_k)`: empty when the
collection is empty; otherwise query the engine for
`min(top_k, collection.count())` results and rebuild chunk records with
`similarity_score = 1 - distance`.  The engine's metadata always carries the
`source` key the code reads (it was stored by `add_chunks`). -/
def find_similar_chunks (retr : String → Nat → List EngineHit) (idx : List Entry)
    (query : String) (top_k : Nat) : List RChunk :=
  if idx.length = 0 then []
  else (retr query (min top_k idx.length)).map
    (fun h => ⟨h.id, h.doc, getS h.meta "source" "", 1 - h.dist, h.meta⟩)

/-- The grounded system prompt of `_generate_answer`. -/
def systemPromptText : String :=
  "You are a helpful assistant that answers questions based on provided documents. \n\nIMPORTANT RULES:\n- Only answer based on the provided context\n- If the context doesn\x27t contain enough information, say so clearly\n- Be specific and cite relevant details from the context\n- Maintain a helpful and professional tone"

/-- The grounded user prompt of `_generate_answer`. -/
def userPromptText (question context : String) : String :=
  "Question: " ++ question ++ "\n\nContext from documents:\n" ++ context ++
    "\n\nPlease provide a comprehensive answer based on the context above."

/-- `SmartRAGSystem._build_context(chunks)`: label each retrieved chunk
`**Source i (filename):**` (1-based, in retrieval order) and join with blank
lines. -/
def build_context (chunks : List RChunk) : String :=
  String.intercalate "\n\n"
    ((chunks.enum).map (fun p =>
      "**Source " ++ toString (p.1 + 1) ++ " (" ++ p.2.source ++ "):**\n" ++ String.mk p.2.content))

/-- `SmartRAGSystem._generate_answer`: one grounded chat call; an exception
from the model is caught and rendered as an error-prefixed string. -/
def generate_answer (llm : List LLMMsg → Except String String) (question context : String) : String :=
  match llm [⟨"system", systemPromptText⟩, ⟨"user", userPromptText question context⟩] with
  | Except.ok c => c
  | Except.error e => "❌ Error generating answer: " ++ e

/-- `SmartRAGSystem._fallback_answer`: one bare chat call with a no-context
disclaimer; an exception is caught and rendered as an error-prefixed string. -/
def fallback_answer (llm : List LLMMsg → Except String String) (question : String) : String :=
  match llm [⟨"user", question ++ "\n\nNote: I don\x27t have specific context for this question in the loaded documents."⟩] with
  | Except.ok c => c
  | Except.error e => "❌ Error: " ++ e

/-- The canned empty-index message of `ask_question`. -/
def noDocsMsg : String :=
  "❌ No documents loaded. Please add documents to the \x27documents\x27 folder."

/-- Result of `ask_question`, together with the number of language-model calls
the run performed. -/
structure AskResult where
  answer : String
  llm_calls : Nat
deriving DecidableEq

/-- `SmartRAGSystem.ask_question(question, include_sources)` (rag_system.py
lines 296-325).  `pyset` is the oracle for Python's `list(set(...))` — any
enumeration of the distinct elements, in an order the language does not
specify. -/
def ask_question (retr : String → Nat → List EngineHit)
    (llm : List LLMMsg → Except String String)
    (pyset : List String → List String)
    (idx : List Entry) (question : String) (include_sources : Bool) : AskResult :=
  let stats := get_collection_stats idx
  if stats.total_chunks = 0 then ⟨noDocsMsg, 0⟩
  else
    let relevant := find_similar_chunks retr idx question MAX_RELEVANT_CHUNKS
    if relevant = [] then ⟨fallback_answer llm question, 1⟩
    else
      let answer := generate_answer llm question (build_context relevant)
      if include_sources then
        ⟨answer ++ "\n\n📚 **Sources:** " ++
          String.intercalate ", " (pyset (relevant.map (fun c => c.source))), 1⟩
      else ⟨answer, 1⟩

/-! ### Change detection and smart refresh (rag_system.py) -/

/-- A file found on disk: basename and the fingerprint
`str(stat.st_mtime)` (the string `"unknown"` when `stat` fails). -/
structure FileRec where
  name : String
  mtime : String
deriving DecidableEq

/-- `SmartRAGSystem._get_existing_documents()` (lines 35-56): walk the stored
metadatas in order and record, for the first entry of each source, the
top-level `last_modified` value, defaulting to `"unknown"` when the key is
absent.  (The per-source chunk count the code also accumulates is never read
by the refresh logic and is omitted.) -/
def get_existing_documents (idx : List Entry) : List (String × String) :=
  idx.foldl
    (fun acc e =>
      let source := getS e.meta "source" ""
      if source ≠ "" ∧ lookupS source acc = none then
        acc ++ [(source, getS e.meta "last_modified" "unknown")]
      else acc)
    []

/-- One step of the per-file classification loop of
`_find_documents_to_process`: append the file as `"New file"` when its name
has no existing entry, as `"Modified file"` when the recorded fingerprint
differs from its current one, and skip it otherwise. -/
def fdtpStep (existing : List (String × String))
    (st : List FileRec × List (String × String)) (f : FileRec) :
    List FileRec × List (String × String) :=
  match lookupS f.name existing with
  | none => (st.1 ++ [f], setS f.name "New file" st.2)
  | some v => if v ≠ f.mtime then (st.1 ++ [f], setS f.name "Modified file" st.2) else st

/-- `SmartRAGSystem._find_documents_to_process()` (lines 70-109): empty answer
for an empty scan; otherwise classify every scanned file against the sources
read back from the index. -/
def find_documents_to_process (files : List FileRec) (idx : List Entry) :
    List FileRec × List (String × String) :=
  if files = [] then ([], [])
  else files.foldl (fdtpStep (get_existing_documents idx)) ([], [])

/-- State of the per-file loop of `smart_refresh_documents`: the index (old
chunks of modified files are deleted as the loop goes), the accumulated new
chunks, and the number of delete operations performed on the index. -/
structure RefreshLoopSt where
  idx : List Entry
  chunks : List Chunk
  dels : Nat
deriving DecidableEq

/-- Outcome of a smart refresh: the final index, whether the run terminated in
the "up to date" state, and how many index writes (delete operations /
`add_chunks` calls) it performed. -/
structure RefreshResult where
  index : List Entry
  up_to_date : Bool
  delete_ops : Nat
  add_calls : Nat
deriving DecidableEq

/-- One iteration of the per-file loop (lines 156-174): look up the reason,
delete the old chunks first when the file was modified, then extract
(`ex` is the Docling oracle: content and structural metadata, `none` on
failure), stamp `last_modified` into the document metadata, chunk with the
default sizes, and accumulate. -/
def refreshStep (ex : FileRec → Option (List Char × List (String × String)))
    (reasons : List (String × String)) (st : RefreshLoopSt) (f : FileRec) : RefreshLoopSt :=
  let reason := getS reasons f.name "Unknown"
  let deleted := reason = "Modified file" ∧ matchingIds f.name st.idx ≠ []
  let idx1 := if reason = "Modified file" then remove_old_chunks f.name st.idx else st.idx
  let dels1 := if deleted then st.dels + 1 else st.dels
  match ex f with
  | none => ⟨idx1, st.chunks, dels1⟩
  | some (content, md) =>
      let doc : Document := ⟨f.name, content, setS "last_modified" f.mtime md⟩
      ⟨idx1, st.chunks ++ create_chunks doc 1000 200, dels1⟩

/-- `SmartRAGSystem.smart_refresh_documents()` (lines 125-187): find the files
to process; if none, terminate immediately in the "up to date" state without
touching the index; otherwise run the per-file loop and finish with a single
`add_chunks` call when any chunks were produced. -/
def smart_refresh_documents (ex : FileRec → Option (List Char × List (String × String)))
    (has_cb : Bool) (files : List FileRec) (idx : List Entry) : RefreshResult :=
  let fr := find_documents_to_process files idx
  if fr.1 = [] then ⟨idx, true, 0, 0⟩
  else
    let st := fr.1.foldl (refreshStep ex fr.2) ⟨idx, [], 0⟩
    if st.chunks = [] then ⟨st.idx, false, st.dels, 0⟩
    else ⟨(add_chunks has_cb st.idx st.chunks).2, false, st.dels, 1⟩

/-! ## Lemmas about the string primitives -/

theorem rstrip_append_dotSpace (w : List Char) : rstrip (w ++ dotSpace) = w ++ ['.'] := by
  have h1 : (' ' : Char).isWhitespace = true := by decide
  have h2 : ('.' : Char).isWhitespace = false := by decide
  simp only [rstrip, dotSpace, List.reverse_append, List.reverse_cons, List.reverse_nil,
    List.nil_append, List.cons_append, List.dropWhile_cons, h1, h2]
  simp

theorem lstrip_append_of_not_all_ws (a b : List Char) (h : ¬ ∀ c ∈ a, c.isWhitespace) :
    lstrip (a ++ b) = lstrip a ++ b := by
  induction a with
  | nil => exact absurd (by intro c hc; cases hc) h
  | cons c t ih =>
      by_cases hc : c.isWhitespace
      · have ht : ¬ ∀ x ∈ t, x.isWhitespace := by
          intro hall
          exact h (by intro x hx; rcases List.mem_cons.mp hx with rfl | hx
                      exacts [hc, hall x hx])
        simp only [lstrip, List.cons_append, List.dropWhile_cons, hc, if_true]
        exact ih ht
      · simp only [lstrip, List.cons_append, List.dropWhile_cons, hc]
        simp [hc]

theorem lstrip_eq_nil_iff (l : List Char) : lstrip l = [] ↔ ∀ c ∈ l, c.isWhitespace := by
  simp [lstrip, List.dropWhile_eq_nil_iff]

theorem lstrip_prefix_append (a b : List Char) : lstrip a <+: lstrip (a ++ b) := by
  by_cases h : ∀ c ∈ a, c.isWhitespace
  · rw [(lstrip_eq_nil_iff a).mpr h]
    exact List.nil_prefix
  · rw [lstrip_append_of_not_all_ws a b h]
    exact List.prefix_append _ _

theorem pyStrip_block (seed u : List Char) :
    pyStrip (seed ++ (u ++ dotSpace)) = lstrip (seed ++ (u ++ ['.'])) := by
  have : seed ++ (u ++ dotSpace) = (seed ++ u) ++ dotSpace := by simp
  rw [pyStrip, this, rstrip_append_dotSpace]
  simp

theorem lstrip_seed_prefix (seed u : List Char) :
    lstrip seed <+: pyStrip (seed ++ (u ++ dotSpace)) := by
  rw [pyStrip_block]
  exact lstrip_prefix_append _ _

theorem pyStrip_ds_ne_nil (w : List Char) : pyStrip (w ++ dotSpace) ≠ [] := by
  have h := pyStrip_block w []
  simp only [List.nil_append] at h
  rw [h]
  intro hnil
  have h3 := (lstrip_eq_nil_iff _).mp hnil '.' (by simp)
  exact absurd h3 (by decide)

theorem pyStrip_ds_length (w : List Char) : (pyStrip (w ++ dotSpace)).length ≤ w.length + 1 := by
  have h := pyStrip_block w []
  simp only [List.nil_append] at h
  rw [h]
  calc (lstrip (w ++ ['.'])).length ≤ (w ++ ['.']).length :=
        (List.dropWhile_sublist _).length_le
    _ = w.length + 1 := by simp

theorem pySplitAux_ne_nil (l acc : List Char) : pySplitAux l acc ≠ [] := by
  induction l, acc using pySplitAux.induct with
  | case1 acc => simp [pySplitAux]
  | case2 c acc => simp [pySplitAux]
  | case3 c1 c2 rest acc h ih => simp [pySplitAux, h]
  | case4 c1 c2 rest acc h ih =>
      rw [pySplitAux, if_neg h]
      exact ih

theorem pySplit_ne_nil (l : List Char) : pySplit l ≠ [] := pySplitAux_ne_nil l []

/-- If no character of `l` is a period, the split is a single sentence. -/
theorem pySplitAux_no_dot (l : List Char) (h : ∀ c ∈ l, c ≠ '.') :
    ∀ acc, pySplitAux l acc = [acc.reverse ++ l] := by
  induction l with
  | nil => intro acc; simp [pySplitAux]
  | cons c t ih =>
      intro acc
      have hc : c ≠ '.' := h c (by simp)
      match t with
      | [] => simp [pySplitAux]
      | c2 :: t2 =>
          rw [pySplitAux]
          rw [if_neg (by simp [hc])]
          rw [ih (fun x hx => h x (List.mem_cons_of_mem c hx)) (c :: acc)]
          simp

/-! ## Lemmas about the chunk loop -/

/-- Invariant on the running buffer `current_chunk`: it is empty or ends with
the two characters `". "`. -/
def BufOk (cc : List Char) : Prop := cc = [] ∨ ∃ w, cc = w ++ dotSpace

theorem bufOk_extend (cc s : List Char) : BufOk (cc ++ (s ++ dotSpace)) :=
  Or.inr ⟨cc ++ s, by simp⟩

theorem chunkLoop_ne_nil (fn : String) (md : List (String × String)) (K ov : Nat) :
    ∀ (sents : List (List Char)) (cc : List Char) (acc : List Chunk),
      sents ≠ [] ∨ cc ≠ [] ∨ acc ≠ [] → chunkLoop fn md K ov sents cc acc ≠ [] := by
  intro sents
  induction sents with
  | nil =>
      intro cc acc h
      rw [chunkLoop]
      split
      · rcases h with h | h | h
        · exact absurd rfl h
        · simp_all
        · exact h
      · simp
  | cons s rest ih =>
      intro cc acc h
      rw [chunkLoop]
      split
      · exact ih _ _ (Or.inr (Or.inl (by simp [dotSpace])))
      · exact ih _ _ (Or.inr (Or.inl (by simp [dotSpace])))

theorem chunkLoop_content_ne_nil (fn : String) (md : List (String × String)) (K ov : Nat) :
    ∀ (sents : List (List Char)) (cc : List Char) (acc : List Chunk),
      BufOk cc → (∀ c ∈ acc, c.content ≠ []) →
      ∀ c ∈ chunkLoop fn md K ov sents cc acc, c.content ≠ [] := by
  intro sents
  induction sents with
  | nil =>
      intro cc acc hb hacc c hc
      rw [chunkLoop] at hc
      split at hc
      · exact hacc c hc
      · rcases List.mem_append.mp hc with hc | hc
        · exact hacc c hc
        · rcases hb with rfl | ⟨w, rfl⟩
          · simp_all
          · simp only [List.mem_singleton] at hc
            subst hc
            exact pyStrip_ds_ne_nil w
  | cons s rest ih =>
      intro cc acc hb hacc c hc
      rw [chunkLoop] at hc
      split at hc
      · exact ih _ _ (by simpa using bufOk_extend cc s) hacc c hc
      · refine ih _ _ (by simpa using bufOk_extend (ovSeed ov cc) s) ?_ c hc
        intro c2 hc2
        split at hc2
        · exact hacc c2 hc2
        · rcases List.mem_append.mp hc2 with hc2 | hc2
          · exact hacc c2 hc2
          · rcases hb with rfl | ⟨w, rfl⟩
            · simp_all
            · simp only [List.mem_singleton] at hc2
              subst hc2
              exact pyStrip_ds_ne_nil w

theorem ovSeed_length_le (ov : Nat) (h0 : ov ≠ 0) (cc : List Char) :
    (ovSeed ov cc).length ≤ ov := by
  rw [ovSeed]
  by_cases h : ov < cc.length
  · rw [if_pos h, if_neg h0]
    simp only [lastN, List.length_drop]
    omega
  · rw [if_neg h]
    omega

theorem chunkLoop_length_le (fn : String) (md : List (String × String)) (K ov : Nat)
    (h0 : ov ≠ 0) :
    ∀ (sents : List (List Char)) (cc : List Char) (acc : List Chunk),
      (∀ s ∈ sents, s.length + ov + 2 ≤ K) → cc.length ≤ K + 1 → BufOk cc →
      (∀ c ∈ acc, c.content.length ≤ K) →
      ∀ c ∈ chunkLoop fn md K ov sents cc acc, c.content.length ≤ K := by
  intro sents
  induction sents with
  | nil =>
      intro cc acc _ hlen hb hacc c hc
      rw [chunkLoop] at hc
      split at hc
      · exact hacc c hc
      · rcases List.mem_append.mp hc with hc | hc
        · exact hacc c hc
        · rcases hb with rfl | ⟨w, rfl⟩
          · simp_all
          · simp only [List.mem_singleton] at hc
            subst hc
            have h1 := pyStrip_ds_length w
            have h2 : w.length + 2 ≤ K + 1 := by
              simpa [dotSpace] using hlen
            simp only []
            omega
  | cons s rest ih =>
      intro cc acc hs hlen hb hacc c hc
      rw [chunkLoop] at hc
      split at hc
      · rename_i hcond
        refine ih _ _ (fun x hx => hs x (by simp [hx])) ?_
          (by simpa using bufOk_extend cc s) hacc c hc
        simp only [List.length_append, dotSpace, List.length_cons, List.length_nil]
        omega
      · have hsK : s.length + ov + 2 ≤ K := hs s (by simp)
        have hseed : (ovSeed ov cc).length ≤ ov := ovSeed_length_le ov h0 cc
        refine ih _ _ (fun x hx => hs x (by simp [hx])) ?_
          (by simpa using bufOk_extend (ovSeed ov cc) s) ?_ c hc
        · simp only [List.length_append, dotSpace, List.length_cons, List.length_nil]
          omega
        · intro c2 hc2
          split at hc2
          · exact hacc c2 hc2
          · rcases List.mem_append.mp hc2 with hc2 | hc2
            · exact hacc c2 hc2
            · rcases hb with rfl | ⟨w, rfl⟩
              · simp_all
              · simp only [List.mem_singleton] at hc2
                subst hc2
                have h1 := pyStrip_ds_length w
                have h2 : w.length + 2 ≤ K + 1 := by
                  simpa [dotSpace] using hlen
                simp only []
                omega

/-! ## Claim C10 -/

/-- C10: for every document and `chunk_size > 0`, `create_chunks` returns at
least one chunk and every returned chunk has non-empty content; a document
with empty content yields exactly one chunk whose content is the single
character `'.'`. -/
theorem claim_c10_chunks_nonempty (d : Document) (K ov : Nat) (hK : 0 < K) :
    create_chunks d K ov ≠ [] ∧ (∀ c ∈ create_chunks d K ov, c.content ≠ []) ∧
      (d.content = [] → (create_chunks d K ov).map Chunk.content = [['.']]) := by
  refine ⟨?_, ?_, ?_⟩
  · exact chunkLoop_ne_nil d.filename d.metadata K ov _ [] []
      (Or.inl (pySplit_ne_nil d.content))
  · exact chunkLoop_content_ne_nil d.filename d.metadata K ov _ [] [] (Or.inl rfl) (by simp)
  · intro h
    have e1 : pySplit d.content = [[]] := by rw [h]; rfl
    rw [create_chunks, e1, chunkLoop]
    rw [if_pos (by simpa using hK)]
    simp only [List.nil_append]
    rw [chunkLoop]
    rw [if_neg (by simp [dotSpace])]
    simp only [List.nil_append, List.map_cons, List.map_nil]
    have e2 : pyStrip dotSpace = ['.'] := by decide
    rw [e2]

/-- C10 witness at a concrete input. -/
theorem claim_c10_chunks_nonempty_witness :
    (0 : Nat) < 5 ∧
      (create_chunks ⟨"f", [], []⟩ 5 2 ≠ [] ∧
        (∀ c ∈ create_chunks ⟨"f", [], []⟩ 5 2, c.content ≠ []) ∧
        ((⟨"f", [], []⟩ : Document).content = [] →
          (create_chunks ⟨"f", [], []⟩ 5 2).map Chunk.content = [['.']])) :=
  ⟨by decide, claim_c10_chunks_nonempty ⟨"f", [], []⟩ 5 2 (by decide)⟩

/-! ## Claim C3 -/

/-- C3 counterexample document: a 1512-character document whose first sentence
is 1500 characters long. -/
def c3doc : Document := ⟨"f", List.replicate 1500 'a' ++ ('.' :: ' ' :: List.replicate 10 'b'), []⟩

set_option maxRecDepth 100000 in
/-- C3 counterexample: with `chunk_size = 1000`, `overlap = 200`, the
document `c3doc` produces a first (non-final) chunk of 1501 characters —
more than `chunk_size`. -/
theorem claim_c3_cex :
    (create_chunks c3doc 1000 200).map (fun c => c.content.length) = [1501, 211] ∧
      ¬ (1501 ≤ 1000) := by
  constructor
  · decide
  · decide

/-- C3 amended: every chunk's content is at most `chunk_size` characters
provided `overlap > 0` and every sentence `s` of the document (split on
`". "`) satisfies `s.length + overlap + 2 ≤ chunk_size`; without that bound
on sentence lengths chunks may exceed `chunk_size` (no hard cap). -/
theorem claim_c3_amended (d : Document) (K ov : Nat) (h0 : 0 < ov)
    (hs : ∀ s ∈ pySplit d.content, s.length + ov + 2 ≤ K) :
    ∀ c ∈ create_chunks d K ov, c.content.length ≤ K :=
  chunkLoop_length_le d.filename d.metadata K ov (Nat.pos_iff_ne_zero.mp h0)
    (pySplit d.content) [] [] hs (by simp) (Or.inl rfl) (by simp)

/-- C3 amended witness at a concrete input. -/
theorem claim_c3_amended_witness :
    (0 : Nat) < 2 ∧ (∀ s ∈ pySplit ("aa. bb. cc".data), s.length + 2 + 2 ≤ 10) ∧
      ∀ c ∈ create_chunks ⟨"f", "aa. bb. cc".data, []⟩ 10 2, c.content.length ≤ 10 :=
  ⟨by decide, by decide,
    claim_c3_amended ⟨"f", "aa. bb. cc".data, []⟩ 10 2 (by decide) (by decide)⟩

/-! ## Claim C4 -/

/-- The overlap relation between two consecutive chunks: the earlier chunk's
content is the stripped form of some non-empty closed buffer `cc`, and the
later chunk's content begins with the leading-whitespace-stripped overlap
seed taken from that buffer (`cc[-overlap:]` when the buffer is longer than
`overlap`, the whole buffer otherwise). -/
def ChunkRel (ov : Nat) (p n : Chunk) : Prop :=
  ∃ cc, cc ≠ [] ∧ p.content = pyStrip cc ∧ lstrip (ovSeed ov cc) <+: n.content

/-- Every pair of consecutive chunks of `l` is in the overlap relation. -/
def OverlapPairs (ov : Nat) (l : List Chunk) : Prop :=
  ∀ i p n, l[i]? = some p → l[i + 1]? = some n → ChunkRel ov p n

theorem overlapPairs_nil (ov : Nat) : OverlapPairs ov [] := by
  intro i p n hp _
  simp at hp

theorem overlapPairs_concat (ov : Nat) (l : List Chunk) (x : Chunk)
    (h : OverlapPairs ov l) (h2 : ∀ lc, l.getLast? = some lc → ChunkRel ov lc x) :
    OverlapPairs ov (l ++ [x]) := by
  intro i p n hp hn
  rcases Nat.lt_trichotomy (i + 1) l.length with h3 | h3 | h3
  · rw [List.getElem?_append_left (by omega)] at hp
    rw [List.getElem?_append_left h3] at hn
    exact h i p n hp hn
  · rw [h3, List.getElem?_concat_length] at hn
    have hn2 : n = x := by injection hn with hn; exact hn.symm
    subst hn2
    rw [List.getElem?_append_left (by omega)] at hp
    refine h2 p ?_
    rw [List.getLast?_eq_getElem?]
    have : l.length - 1 = i := by omega
    rw [this, hp]
  · rw [List.getElem?_eq_none (by simp; omega)] at hn
    exact absurd hn (by simp)

/-- Invariant tying the last emitted chunk to the current buffer: either no
chunk has been emitted yet, or the current buffer extends the overlap seed of
the buffer whose stripped form is the last chunk's content by at least one
sentence block. -/
def LinkInv (ov : Nat) (acc : List Chunk) (cc : List Char) : Prop :=
  acc = [] ∨ ∃ lc cc0 u, acc.getLast? = some lc ∧ cc0 ≠ [] ∧ lc.content = pyStrip cc0 ∧
    cc = ovSeed ov cc0 ++ (u ++ dotSpace)

theorem linkInv_nil_buf (ov : Nat) (acc : List Chunk) (cc : List Char)
    (h : LinkInv ov acc cc) (hcc : cc = []) : acc = [] := by
  rcases h with h | ⟨lc, cc0, u, _, _, _, hform⟩
  · exact h
  · rw [hcc] at hform
    exact absurd hform.symm (by simp [dotSpace])

theorem chunkLoop_overlapPairs (fn : String) (md : List (String × String)) (K ov : Nat) :
    ∀ (sents : List (List Char)) (cc : List Char) (acc : List Chunk),
      OverlapPairs ov acc → LinkInv ov acc cc →
      OverlapPairs ov (chunkLoop fn md K ov sents cc acc) := by
  intro sents
  induction sents with
  | nil =>
      intro cc acc hp hl
      rw [chunkLoop]
      split
      · exact hp
      · rename_i hcc
        refine overlapPairs_concat ov acc _ hp ?_
        intro lc hlast
        rcases hl with rfl | ⟨lc2, cc0, u, hlast2, hne, hcont, hform⟩
        · simp at hlast
        · rw [hlast2] at hlast
          injection hlast with hlast
          subst hlast
          exact ⟨cc0, hne, hcont, by rw [hform]; exact lstrip_seed_prefix _ _⟩
  | cons s rest ih =>
      intro cc acc hp hl
      rw [chunkLoop]
      split
      · refine ih _ _ hp ?_
        rcases hl with rfl | ⟨lc, cc0, u, hlast, hne, hcont, hform⟩
        · exact Or.inl rfl
        · refine Or.inr ⟨lc, cc0, u ++ dotSpace ++ s, hlast, hne, hcont, ?_⟩
          rw [hform]
          simp
      · by_cases hcc : cc = []
        · have hacc : acc = [] := linkInv_nil_buf ov acc cc hl hcc
          subst hacc
          rw [if_pos hcc]
          exact ih _ _ hp (Or.inl rfl)
        · rw [if_neg hcc]
          refine ih _ _ ?_ ?_
          · refine overlapPairs_concat ov acc _ hp ?_
            intro lc hlast
            rcases hl with rfl | ⟨lc2, cc0, u, hlast2, hne, hcont, hform⟩
            · simp at hlast
            · rw [hlast2] at hlast
              injection hlast with hlast
              subst hlast
              exact ⟨cc0, hne, hcont, by rw [hform]; exact lstrip_seed_prefix _ _⟩
          · refine Or.inr ⟨⟨chunkId fn acc.length, pyStrip cc, fn, md⟩, cc, s,
              List.getLast?_concat _, hcc, rfl, ?_⟩
            simp [List.append_assoc]

/-- C4 amended: whenever the chunker closes a buffer as a chunk, the next
chunk's content begins with the leading-whitespace-stripped overlap seed of
the closed (unstripped) buffer — the buffer's last `overlap` characters when
it is longer than `overlap` (which end in the buffer's trailing space), the
whole buffer otherwise — not with the last `overlap` characters of the
preceding chunk's stripped content. -/
theorem claim_c4_amended (d : Document) (K ov : Nat) :
    OverlapPairs ov (create_chunks d K ov) :=
  chunkLoop_overlapPairs d.filename d.metadata K ov (pySplit d.content) [] []
    (overlapPairs_nil ov) (Or.inl rfl)

/-- C4 amended witness: concrete two-chunk run, instantiating the theorem at
the first consecutive pair. -/
theorem claim_c4_amended_witness :
    (create_chunks ⟨"f", "aaaa. bbbb".data, []⟩ 8 3)[0]? =
        some ⟨"f_chunk_0", "aaaa.".data, "f", []⟩ ∧
      (create_chunks ⟨"f", "aaaa. bbbb".data, []⟩ 8 3)[1]? =
        some ⟨"f_chunk_1", "a. bbbb.".data, "f", []⟩ ∧
      ChunkRel 3 ⟨"f_chunk_0", "aaaa.".data, "f", []⟩ ⟨"f_chunk_1", "a. bbbb.".data, "f", []⟩ :=
  ⟨by decide, by decide,
    claim_c4_amended ⟨"f", "aaaa. bbbb".data, []⟩ 8 3 0 _ _ (by decide) (by decide)⟩

/-- C4 counterexample document: 1500 characters, splitting into exactly two
chunks with `chunk_size = 1000`, `overlap = 200`. -/
def c4doc : Document := ⟨"f", List.replicate 900 'a' ++ ('.' :: ' ' :: List.replicate 598 'b'), []⟩

set_option maxRecDepth 100000 in
/-- C4 counterexample: the 1500-character document `c4doc` yields exactly two
chunks, but the second chunk does not begin with the last 200 characters of
the first chunk's content (it begins with the last 200 characters of the
first closed buffer, whose final character is a space that `strip` removed
from the first chunk's content). -/
theorem claim_c4_cex :
    c4doc.content.length = 1500 ∧
      (create_chunks c4doc 1000 200).map Chunk.content =
        [List.replicate 900 'a' ++ ['.'],
          List.replicate 198 'a' ++ ('.' :: ' ' :: (List.replicate 598 'b' ++ ['.']))] ∧
      ¬ (lastN 200 (List.replicate 900 'a' ++ ['.']) <+:
          List.replicate 198 'a' ++ ('.' :: ' ' :: (List.replicate 598 'b' ++ ['.']))) := by
  refine ⟨by decide, by decide, by decide⟩

/-! ## Claims C5 and C6: index-write lemmas -/

/-- The collection never holds two entries with the same id (it is keyed by
id); this is the store's own invariant, maintained by `upsertOne`. -/
def NodupIds (idx : List Entry) : Prop := (idx.map Entry.id).Nodup

instance (idx : List Entry) : Decidable (NodupIds idx) :=
  inferInstanceAs (Decidable ((idx.map Entry.id).Nodup))

/-- `collection.get(ids=[i])`-style lookup: the first entry with the id. -/
def findEntry (idx : List Entry) (i : String) : Option Entry :=
  idx.find? (fun e => decide (e.id = i))

theorem ids_map_repl (k : List Entry) (e : Entry) :
    (k.map (fun x => if x.id = e.id then e else x)).map Entry.id = k.map Entry.id := by
  rw [List.map_map]
  refine List.map_congr_left ?_
  intro x _
  by_cases h : x.id = e.id
  · simp [Function.comp, h]
  · simp [Function.comp, h]

theorem mem_ids_upsertOne (j : List Entry) (e : Entry) :
    e.id ∈ (upsertOne j e).map Entry.id := by
  rw [upsertOne]
  by_cases h : e.id ∈ j.map Entry.id
  · rw [if_pos h, ids_map_repl]
    exact h
  · rw [if_neg h]
    simp

theorem ids_upsertOne_superset (j : List Entry) (e : Entry) (a : String)
    (h : a ∈ j.map Entry.id) : a ∈ (upsertOne j e).map Entry.id := by
  rw [upsertOne]
  by_cases h2 : e.id ∈ j.map Entry.id
  · rw [if_pos h2, ids_map_repl]
    exact h
  · rw [if_neg h2]
    simp [h]

theorem upsert_upsert_same (j : List Entry) (e : Entry) :
    upsertOne (upsertOne j e) e = upsertOne j e := by
  by_cases h : e.id ∈ j.map Entry.id
  · have h1 : upsertOne j e = j.map (fun x => if x.id = e.id then e else x) := by
      rw [upsertOne, if_pos h]
    rw [h1, upsertOne, if_pos (by rw [ids_map_repl]; exact h), List.map_map]
    refine List.map_congr_left ?_
    intro x _
    by_cases hx : x.id = e.id
    · simp [Function.comp, hx]
    · simp [Function.comp, hx]
  · have h1 : upsertOne j e = j ++ [e] := by rw [upsertOne, if_neg h]
    rw [h1, upsertOne, if_pos (by simp), List.map_append]
    have h2 : j.map (fun x => if x.id = e.id then e else x) = j.map id := by
      refine List.map_congr_left ?_
      intro x hx
      rw [if_neg, id]
      intro hid
      exact h (hid ▸ List.mem_map_of_mem Entry.id hx)
    rw [h2, List.map_id]
    simp

theorem upsert_comm (j : List Entry) (e f : Entry) (hne : e.id ≠ f.id)
    (he : e.id ∈ j.map Entry.id) :
    upsertOne (upsertOne j f) e = upsertOne (upsertOne j e) f := by
  have hje : upsertOne j e = j.map (fun x => if x.id = e.id then e else x) := by
    rw [upsertOne, if_pos he]
  by_cases hf : f.id ∈ j.map Entry.id
  · have hjf : upsertOne j f = j.map (fun x => if x.id = f.id then f else x) := by
      rw [upsertOne, if_pos hf]
    rw [hjf, upsertOne, if_pos (by rw [ids_map_repl]; exact he), hje, upsertOne,
      if_pos (by rw [ids_map_repl]; exact hf), List.map_map, List.map_map]
    refine List.map_congr_left ?_
    intro x _
    by_cases hx : x.id = e.id
    · have hx2 : ¬ x.id = f.id := by rw [hx]; exact hne
      simp [Function.comp, hx, hx2, hne]
    · by_cases hx2 : x.id = f.id
      · have : ¬ f.id = e.id := fun h2 => hne h2.symm
        simp [Function.comp, hx, hx2, this]
      · simp [Function.comp, hx, hx2]
  · have hjf : upsertOne j f = j ++ [f] := by rw [upsertOne, if_neg hf]
    have hfe : ¬ f.id = e.id := fun h2 => hne h2.symm
    rw [hjf, upsertOne, if_pos (by simp [he]), hje, upsertOne,
      if_neg (by rw [ids_map_repl]; exact hf), List.map_append]
    have h2 : [f].map (fun x => if x.id = e.id then e else x) = [f] := by
      simp [hfe]
    rw [h2]

theorem upsert_addAll_comm (t : List Entry) :
    ∀ (j : List Entry) (e : Entry), e.id ∈ j.map Entry.id → (∀ x ∈ t, x.id ≠ e.id) →
      upsertOne (addAll j t) e = addAll (upsertOne j e) t := by
  induction t with
  | nil => intro j e _ _; rfl
  | cons f t2 ih =>
      intro j e he ht
      have h1 : addAll j (f :: t2) = addAll (upsertOne j f) t2 := rfl
      rw [h1, ih (upsertOne j f) e (ids_upsertOne_superset j f e.id he)
        (fun x hx => ht x (List.mem_cons_of_mem f hx))]
      have h2 : upsertOne (upsertOne j f) e = upsertOne (upsertOne j e) f :=
        upsert_comm j e f (fun h3 => ht f (by simp) h3.symm) he
      rw [h2]
      rfl

theorem addAll_re_idem (t : List Entry) :
    ∀ j : List Entry, (t.map Entry.id).Nodup → addAll (addAll j t) t = addAll j t := by
  induction t with
  | nil => intro j _; rfl
  | cons e t2 ih =>
      intro j hnd
      have hnd2 : (t2.map Entry.id).Nodup := (List.nodup_cons.mp hnd).2
      have hnm : e.id ∉ t2.map Entry.id := (List.nodup_cons.mp hnd).1
      have h1 : ∀ x ∈ t2, x.id ≠ e.id := by
        intro x hx h2
        exact hnm (h2 ▸ List.mem_map_of_mem Entry.id hx)
      have h2 : addAll j (e :: t2) = addAll (upsertOne j e) t2 := rfl
      rw [h2]
      have h3 : addAll (addAll (upsertOne j e) t2) (e :: t2) =
          addAll (upsertOne (addAll (upsertOne j e) t2) e) t2 := rfl
      rw [h3, upsert_addAll_comm t2 (upsertOne j e) e (mem_ids_upsertOne j e) h1,
        upsert_upsert_same, ih (upsertOne j e) hnd2]

theorem nodupIds_upsertOne (j : List Entry) (e : Entry) (h : NodupIds j) :
    NodupIds (upsertOne j e) := by
  rw [NodupIds, upsertOne]
  by_cases h2 : e.id ∈ j.map Entry.id
  · rw [if_pos h2, ids_map_repl]
    exact h
  · rw [if_neg h2, List.map_append]
    simp only [List.map_cons, List.map_nil]
    rw [List.nodup_append]
    exact ⟨h, List.nodup_singleton _, by intro a ha hb; simp at hb; subst hb; exact h2 ha⟩

theorem nodupIds_addAll (t : List Entry) :
    ∀ j : List Entry, NodupIds j → NodupIds (addAll j t) := by
  induction t with
  | nil => intro j h; exact h
  | cons e t2 ih => intro j h; exact ih (upsertOne j e) (nodupIds_upsertOne j e h)

theorem addBatches_eq_addAll_aux (n : Nat) :
    ∀ (es : List Entry) (idx : List Entry), es.length ≤ n → addBatches idx es = addAll idx es := by
  induction n with
  | zero =>
      intro es idx h
      have h2 : es = [] := List.eq_nil_of_length_eq_zero (Nat.le_zero.mp h)
      subst h2
      rw [addBatches]
      simp [addAll]
  | succ n ih =>
      intro es idx h
      rw [addBatches]
      by_cases h2 : es = []
      · subst h2
        simp [addAll]
      · rw [if_neg h2]
        have h3 : 0 < es.length := List.length_pos.mpr h2
        have h4 : (es.drop 10).length ≤ n := by
          simp only [List.length_drop]
          omega
        rw [ih (es.drop 10) (addAll idx (es.take 10)) h4]
        rw [addAll, addAll, addAll, ← List.foldl_append, List.take_append_drop]

theorem addBatches_eq_addAll (idx es : List Entry) : addBatches idx es = addAll idx es :=
  addBatches_eq_addAll_aux es.length es idx (Nat.le_refl _)

/-- The index after a call of `add_chunks`: unchanged for an empty chunk
list, the fold of upserts otherwise (the batched write path is the same
fold). -/
theorem add_chunks_snd (cb : Bool) (idx : List Entry) (cs : List Chunk) :
    (add_chunks cb idx cs).2 = if cs = [] then idx else addAll idx (cs.map entryOfChunk) := by
  rw [add_chunks]
  by_cases h : cs = []
  · rw [if_pos h, if_pos h]
  · rw [if_neg h, if_neg h]
    by_cases h2 : 10 < cs.length ∧ cb = true
    · rw [if_pos h2]
      exact addBatches_eq_addAll idx (cs.map entryOfChunk)
    · rw [if_neg h2]

theorem find?_map_repl (j : List Entry) (e : Entry) (i : String) (h : i ≠ e.id) :
    findEntry (j.map (fun x => if x.id = e.id then e else x)) i = findEntry j i := by
  induction j with
  | nil => rfl
  | cons x t ih =>
      rw [List.map_cons]
      have hei : ¬ e.id = i := fun h2 => h h2.symm
      by_cases hx : x.id = e.id
      · rw [if_pos hx, findEntry, List.find?_cons_of_neg _ (by simp [hei]),
          findEntry, List.find?_cons_of_neg _ (by simp [hx, hei])]
        exact ih
      · rw [if_neg hx]
        by_cases hxi : x.id = i
        · rw [findEntry, List.find?_cons_of_pos _ (by simp [hxi]),
            findEntry, List.find?_cons_of_pos _ (by simp [hxi])]
        · rw [findEntry, List.find?_cons_of_neg _ (by simp [hxi]),
            findEntry, List.find?_cons_of_neg _ (by simp [hxi])]
          exact ih

theorem findEntry_upsert_self (j : List Entry) (e : Entry) :
    findEntry (upsertOne j e) e.id = some e := by
  rw [upsertOne]
  by_cases h : e.id ∈ j.map Entry.id
  · rw [if_pos h]
    induction j with
    | nil => simp at h
    | cons x t ih =>
        rw [List.map_cons]
        by_cases hx : x.id = e.id
        · rw [if_pos hx, findEntry, List.find?_cons_of_pos _ (by simp)]
        · rw [if_neg hx]
          have h2 : e.id ∈ t.map Entry.id := by
            rcases List.mem_cons.mp h with h2 | h2
            · exact absurd h2.symm hx
            · exact h2
          rw [findEntry, List.find?_cons_of_neg _ (by simp [hx])]
          exact ih h2
  · rw [if_neg h, findEntry, List.find?_append]
    have h3 : j.find? (fun x => decide (x.id = e.id)) = none := by
      rw [List.find?_eq_none]
      intro x hx
      simp only [decide_eq_true_eq]
      intro h4
      exact h (h4 ▸ List.mem_map_of_mem Entry.id hx)
    rw [h3]
    simp [List.find?]

theorem findEntry_upsert_other (j : List Entry) (e : Entry) (i : String) (h : i ≠ e.id) :
    findEntry (upsertOne j e) i = findEntry j i := by
  rw [upsertOne]
  by_cases h2 : e.id ∈ j.map Entry.id
  · rw [if_pos h2]
    exact find?_map_repl j e i h
  · rw [if_neg h2, findEntry, List.find?_append]
    have hei : ¬ e.id = i := fun h4 => h h4.symm
    have h3 : [e].find? (fun x => decide (x.id = i)) = none := by
      simp [List.find?, hei]
    rw [h3]
    simp [findEntry]

theorem findEntry_addAll_of_absent (t : List Entry) :
    ∀ (j : List Entry) (i : String), (∀ x ∈ t, x.id ≠ i) →
      findEntry (addAll j t) i = findEntry j i := by
  induction t with
  | nil => intro j i _; rfl
  | cons f t2 ih =>
      intro j i h
      have h1 : addAll j (f :: t2) = addAll (upsertOne j f) t2 := rfl
      rw [h1, ih (upsertOne j f) i (fun x hx => h x (List.mem_cons_of_mem f hx)),
        findEntry_upsert_other j f i (fun h2 => h f (by simp) h2.symm)]

theorem findEntry_addAll_self (t : List Entry) :
    ∀ (j : List Entry) (e : Entry), e ∈ t → (t.map Entry.id).Nodup →
      findEntry (addAll j t) e.id = some e := by
  induction t with
  | nil => intro j e he _; simp at he
  | cons f t2 ih =>
      intro j e he hnd
      have h1 : addAll j (f :: t2) = addAll (upsertOne j f) t2 := rfl
      rcases List.mem_cons.mp he with rfl | he2
      · have hnm : e.id ∉ t2.map Entry.id := (List.nodup_cons.mp hnd).1
        have h2 : ∀ x ∈ t2, x.id ≠ e.id := by
          intro x hx h3
          exact hnm (h3 ▸ List.mem_map_of_mem Entry.id hx)
        rw [h1, findEntry_addAll_of_absent t2 (upsertOne j e) e.id h2,
          findEntry_upsert_self]
      · rw [h1]
        exact ih (upsertOne j f) e he2 (List.nodup_cons.mp hnd).2

/-- C5: `add_chunks` has upsert semantics per id: with distinct chunk ids,
adding the same chunk list twice leaves the index exactly as adding it once;
id-uniqueness of the index is preserved (one entry per id); and after the
call every chunk is found in the index under its id, with exactly the stored
entry built from it (same id overwrites). -/
theorem claim_c5_add_chunks_idempotent (has_cb : Bool) (idx : List Entry) (cs : List Chunk)
    (h : (cs.map Chunk.id).Nodup) :
    (add_chunks has_cb (add_chunks has_cb idx cs).2 cs).2 = (add_chunks has_cb idx cs).2 ∧
      (NodupIds idx → NodupIds (add_chunks has_cb idx cs).2) ∧
      (∀ c ∈ cs, findEntry (add_chunks has_cb idx cs).2 c.id = some (entryOfChunk c)) := by
  have hid : (cs.map entryOfChunk).map Entry.id = cs.map Chunk.id := by
    rw [List.map_map]
    rfl
  by_cases hcs : cs = []
  · subst hcs
    refine ⟨by rw [add_chunks_snd, add_chunks_snd]; simp, fun h2 => ?_, by simp⟩
    rw [add_chunks_snd]
    simpa using h2
  · have hsnd : (add_chunks has_cb idx cs).2 = addAll idx (cs.map entryOfChunk) := by
      rw [add_chunks_snd, if_neg hcs]
    refine ⟨?_, ?_, ?_⟩
    · rw [hsnd, add_chunks_snd, if_neg hcs]
      exact addAll_re_idem (cs.map entryOfChunk) idx (by rw [hid]; exact h)
    · intro h2
      rw [hsnd]
      exact nodupIds_addAll (cs.map entryOfChunk) idx h2
    · intro c hc
      rw [hsnd]
      have h3 : entryOfChunk c ∈ cs.map entryOfChunk := List.mem_map_of_mem entryOfChunk hc
      have h4 : ((cs.map entryOfChunk).map Entry.id).Nodup := by rw [hid]; exact h
      exact findEntry_addAll_self (cs.map entryOfChunk) idx (entryOfChunk c) h3 h4

/-- C5 witness at a concrete input. -/
theorem claim_c5_add_chunks_idempotent_witness :
    (([⟨"c1", "x".data, "s", []⟩, ⟨"c2", "y".data, "s", []⟩] :
        List Chunk).map Chunk.id).Nodup ∧
      ((add_chunks false (add_chunks false [] [⟨"c1", "x".data, "s", []⟩, ⟨"c2", "y".data, "s", []⟩]).2
          [⟨"c1", "x".data, "s", []⟩, ⟨"c2", "y".data, "s", []⟩]).2 =
        (add_chunks false [] [⟨"c1", "x".data, "s", []⟩, ⟨"c2", "y".data, "s", []⟩]).2 ∧
      (NodupIds [] → NodupIds (add_chunks false [] [⟨"c1", "x".data, "s", []⟩, ⟨"c2", "y".data, "s", []⟩]).2) ∧
      (∀ c ∈ ([⟨"c1", "x".data, "s", []⟩, ⟨"c2", "y".data, "s", []⟩] : List Chunk),
        findEntry (add_chunks false [] [⟨"c1", "x".data, "s", []⟩, ⟨"c2", "y".data, "s", []⟩]).2 c.id =
          some (entryOfChunk c))) :=
  ⟨by decide,
    claim_c5_add_chunks_idempotent false [] [⟨"c1", "x".data, "s", []⟩, ⟨"c2", "y".data, "s", []⟩]
      (by decide)⟩

/-- C6: on an id-unique index, `_remove_old_chunks f` removes exactly the
entries whose metadata `source` equals `f` and leaves every other entry
unchanged (result = filter keeping the other-source entries, in order). -/
theorem claim_c6_delete_by_source (idx : List Entry) (f : String) (h : NodupIds idx) :
    remove_old_chunks f idx =
      idx.filter (fun e => decide (¬ lookupS "source" e.meta = some f)) := by
  rw [remove_old_chunks]
  by_cases hm : matchingIds f idx = []
  · rw [if_pos hm]
    have h2 : ∀ e ∈ idx, ¬ lookupS "source" e.meta = some f := by
      intro e he hsrc
      have h3 : (idx.filter (fun e => decide (lookupS "source" e.meta = some f))) = [] := by
        by_contra h4
        rcases List.exists_mem_of_ne_nil _ h4 with ⟨x, hx⟩
        have : x.id ∈ matchingIds f idx := List.mem_map_of_mem Entry.id hx
        rw [hm] at this
        simp at this
      have h5 : e ∈ idx.filter (fun e => decide (lookupS "source" e.meta = some f)) :=
        List.mem_filter.mpr ⟨he, by simp [hsrc]⟩
      rw [h3] at h5
      simp at h5
    symm
    rw [List.filter_eq_self]
    intro e he
    simp [h2 e he]
  · rw [if_neg hm]
    refine List.filter_congr ?_
    intro e he
    rw [decide_eq_decide]
    constructor
    · intro hnotin hsrc
      exact hnotin (List.mem_map_of_mem Entry.id (List.mem_filter.mpr ⟨he, by simp [hsrc]⟩))
    · intro hnot hin
      rcases List.mem_map.mp hin with ⟨x, hx, hxid⟩
      have hx2 := List.mem_filter.mp hx
      have hxe : x = e :=
        List.inj_on_of_nodup_map h hx2.1 he hxid
      rw [hxe] at hx2
      exact hnot (by simpa using hx2.2)

/-- C6 witness at a concrete input. -/
theorem claim_c6_delete_by_source_witness :
    NodupIds [⟨"i1", "x".data, [("source", "a.txt")]⟩, ⟨"i2", "y".data, [("source", "b.txt")]⟩] ∧
      remove_old_chunks "a.txt"
          [⟨"i1", "x".data, [("source", "a.txt")]⟩, ⟨"i2", "y".data, [("source", "b.txt")]⟩] =
        ([⟨"i1", "x".data, [("source", "a.txt")]⟩, ⟨"i2", "y".data, [("source", "b.txt")]⟩] :
            List Entry).filter
          (fun e => decide (¬ lookupS "source" e.meta = some "a.txt")) :=
  ⟨by decide,
    claim_c6_delete_by_source
      [⟨"i1", "x".data, [("source", "a.txt")]⟩, ⟨"i2", "y".data, [("source", "b.txt")]⟩]
      "a.txt" (by decide)⟩

/-! ## Claim C1 -/

/-- C1 scenario: the extractor oracle for a directory holding one text file. -/
def c1ex : FileRec → Option (List Char × List (String × String)) :=
  fun f => if f.name = "a.txt" then some ("hello".data, [("pages", "1")]) else none

/-- C1 scenario: the scanned directory — one file, fingerprint `"100.0"`,
unchanged between the two runs. -/
def c1fs : List FileRec := [⟨"a.txt", "100.0"⟩]

/-- C1, evaluated at the failing input: after a first smart refresh from an
empty index, a second smart refresh over the unchanged directory reads the
fingerprint back as `"unknown"` (because `add_chunks` stored `last_modified`
only inside the stringified `metadata` field, not as a top-level key),
re-flags the file as `"Modified file"`, and performs one delete operation and
one `add_chunks` call instead of terminating in the "up to date" state with
zero index writes. -/
theorem claim_c1_second_run_writes :
    get_existing_documents (smart_refresh_documents c1ex true c1fs []).index =
        [("a.txt", "unknown")] ∧
      (find_documents_to_process c1fs (smart_refresh_documents c1ex true c1fs []).index).2 =
        [("a.txt", "Modified file")] ∧
      (smart_refresh_documents c1ex true c1fs
          (smart_refresh_documents c1ex true c1fs []).index).up_to_date = false ∧
      (smart_refresh_documents c1ex true c1fs
          (smart_refresh_documents c1ex true c1fs []).index).delete_ops = 1 ∧
      (smart_refresh_documents c1ex true c1fs
          (smart_refresh_documents c1ex true c1fs []).index).add_calls = 1 := by
  refine ⟨by decide, by decide, by decide, by decide, by decide⟩

/-! ## Claim C2 -/

theorem lookupS_setS_self (k v : String) (m : List (String × String)) :
    lookupS k (setS k v m) = some v := by
  induction m with
  | nil => simp [setS, lookupS]
  | cons p t ih =>
      rw [setS]
      by_cases h : p.1 = k
      · rw [if_pos h, lookupS, if_pos h]
      · rw [if_neg h, lookupS, if_neg h]
        exact ih

theorem lookupS_setS_other (k k2 v : String) (m : List (String × String)) (h : k2 ≠ k) :
    lookupS k (setS k2 v m) = lookupS k m := by
  induction m with
  | nil => simp [setS, lookupS, h]
  | cons p t ih =>
      rw [setS]
      by_cases h2 : p.1 = k2
      · rw [if_pos h2, lookupS, lookupS]
        have h3 : ¬ p.1 = k := by rw [h2]; exact h
        rw [if_neg h3, if_neg h3]
      · rw [if_neg h2, lookupS, lookupS]
        by_cases h3 : p.1 = k
        · rw [if_pos h3, if_pos h3]
        · rw [if_neg h3, if_neg h3]
          exact ih

theorem fdtpStep_fst (E : List (String × String)) (st : List FileRec × List (String × String))
    (g : FileRec) : (fdtpStep E st g).1 = st.1 ∨ (fdtpStep E st g).1 = st.1 ++ [g] := by
  rw [fdtpStep]
  rcases h : lookupS g.name E with _ | v
  · exact Or.inr rfl
  · dsimp only
    by_cases h2 : v ≠ g.mtime
    · rw [if_pos h2]
      exact Or.inr rfl
    · rw [if_neg h2]
      exact Or.inl rfl

theorem fdtpStep_snd (E : List (String × String)) (st : List FileRec × List (String × String))
    (g : FileRec) :
    (fdtpStep E st g).2 = st.2 ∨ ∃ r, (fdtpStep E st g).2 = setS g.name r st.2 := by
  rw [fdtpStep]
  rcases h : lookupS g.name E with _ | v
  · exact Or.inr ⟨"New file", rfl⟩
  · dsimp only
    by_cases h2 : v ≠ g.mtime
    · rw [if_pos h2]
      exact Or.inr ⟨"Modified file", rfl⟩
    · rw [if_neg h2]
      exact Or.inl rfl

theorem fdtp_fold_mem (E : List (String × String)) (l : List FileRec) :
    ∀ (st : List FileRec × List (String × String)) (f : FileRec),
      f ∈ st.1 → f ∈ (l.foldl (fdtpStep E) st).1 := by
  induction l with
  | nil => intro st f h; exact h
  | cons g t ih =>
      intro st f h
      refine ih (fdtpStep E st g) f ?_
      rcases fdtpStep_fst E st g with h2 | h2
      · rw [h2]; exact h
      · rw [h2]; exact List.mem_append_left _ h

theorem fdtp_fold_provenance (E : List (String × String)) (l : List FileRec) :
    ∀ (st : List FileRec × List (String × String)) (f : FileRec),
      f ∈ (l.foldl (fdtpStep E) st).1 → f ∈ st.1 ∨ f ∈ l := by
  induction l with
  | nil => intro st f h; exact Or.inl h
  | cons g t ih =>
      intro st f h
      rcases ih (fdtpStep E st g) f h with h2 | h2
      · rcases fdtpStep_fst E st g with h3 | h3
        · rw [h3] at h2
          exact Or.inl h2
        · rw [h3] at h2
          rcases List.mem_append.mp h2 with h4 | h4
          · exact Or.inl h4
          · simp only [List.mem_singleton] at h4
            exact Or.inr (h4 ▸ List.mem_cons_self g t)
      · exact Or.inr (List.mem_cons_of_mem g h2)

theorem fdtp_fold_lookup (E : List (String × String)) (l : List FileRec) :
    ∀ (st : List FileRec × List (String × String)) (k : String),
      (∀ g ∈ l, g.name ≠ k) →
      lookupS k (l.foldl (fdtpStep E) st).2 = lookupS k st.2 := by
  induction l with
  | nil => intro st k _; rfl
  | cons g t ih =>
      intro st k h
      rw [List.foldl_cons, ih (fdtpStep E st g) k (fun x hx => h x (List.mem_cons_of_mem g hx))]
      rcases fdtpStep_snd E st g with h2 | ⟨r, h2⟩
      · rw [h2]
      · rw [h2, lookupS_setS_other k g.name r st.2 (h g (List.mem_cons_self g t))]

/-- C2 amended: for every scanned file (with distinct basenames), the
classification is exactly: `"New file"` when the filename has no entry among
the sources read back from the index; `"Modified file"` when the recorded
fingerprint string differs from the current one; omitted otherwise.  A
missing recorded fingerprint is read back as the string `"unknown"`, which
differs from every real fingerprint — but equals a current fingerprint that
itself reads `"unknown"` (`stat` failure), in which case the file is
skipped, not reprocessed. -/
theorem claim_c2_classification (files : List FileRec) (idx : List Entry)
    (hN : (files.map FileRec.name).Nodup) (f : FileRec) (hf : f ∈ files) :
    (lookupS f.name (get_existing_documents idx) = none →
        f ∈ (find_documents_to_process files idx).1 ∧
        lookupS f.name (find_documents_to_process files idx).2 = some "New file") ∧
      (∀ v, lookupS f.name (get_existing_documents idx) = some v → v ≠ f.mtime →
        f ∈ (find_documents_to_process files idx).1 ∧
        lookupS f.name (find_documents_to_process files idx).2 = some "Modified file") ∧
      (∀ v, lookupS f.name (get_existing_documents idx) = some v → v = f.mtime →
        f ∉ (find_documents_to_process files idx).1 ∧
        lookupS f.name (find_documents_to_process files idx).2 = none) := by
  have hfiles : files ≠ [] := by rintro rfl; simp at hf
  have hunf : find_documents_to_process files idx =
      files.foldl (fdtpStep (get_existing_documents idx)) ([], []) := by
    rw [find_documents_to_process, if_neg hfiles]
  rcases List.append_of_mem hf with ⟨l1, l2, rfl⟩
  set E := get_existing_documents idx with hE
  have hmap : (l1 ++ f :: l2).map FileRec.name =
      l1.map FileRec.name ++ f.name :: l2.map FileRec.name := by simp
  rw [hmap] at hN
  have hnd := List.nodup_append.mp hN
  have hn2 : f.name ∉ l2.map FileRec.name := (List.nodup_cons.mp hnd.2.1).1
  have hn1 : f.name ∉ l1.map FileRec.name := by
    intro h1
    exact hnd.2.2 h1 (List.mem_cons_self _ _)
  have hl1 : ∀ g ∈ l1, g.name ≠ f.name := by
    intro g hg h2
    exact hn1 (h2 ▸ List.mem_map_of_mem FileRec.name hg)
  have hl2 : ∀ g ∈ l2, g.name ≠ f.name := by
    intro g hg h2
    exact hn2 (h2 ▸ List.mem_map_of_mem FileRec.name hg)
  have hg1 : ∀ g ∈ l1, g ≠ f := fun g hg h2 => hl1 g hg (by rw [h2])
  have hg2 : ∀ g ∈ l2, g ≠ f := fun g hg h2 => hl2 g hg (by rw [h2])
  have hsplit : (l1 ++ f :: l2).foldl (fdtpStep E) ([], []) =
      l2.foldl (fdtpStep E) (fdtpStep E (l1.foldl (fdtpStep E) ([], [])) f) := by
    rw [List.foldl_append, List.foldl_cons]
  set st1 := l1.foldl (fdtpStep E) ([], []) with hst1
  have hf1 : f ∉ st1.1 := by
    intro h1
    rcases fdtp_fold_provenance E l1 ([], []) f h1 with h2 | h2
    · simp at h2
    · exact hg1 f h2 rfl
  have hlk1 : lookupS f.name st1.2 = none := by
    rw [hst1, fdtp_fold_lookup E l1 ([], []) f.name hl1]
    rfl
  refine ⟨?_, ?_, ?_⟩
  · intro hnone
    have hstep : fdtpStep E st1 f = (st1.1 ++ [f], setS f.name "New file" st1.2) := by
      rw [fdtpStep, hnone]
    constructor
    · rw [hunf, hsplit, hstep]
      exact fdtp_fold_mem E l2 _ f (List.mem_append_right _ (by simp))
    · rw [hunf, hsplit, hstep, fdtp_fold_lookup E l2 _ f.name hl2]
      exact lookupS_setS_self f.name "New file" st1.2
  · intro v hv hvne
    have hstep : fdtpStep E st1 f = (st1.1 ++ [f], setS f.name "Modified file" st1.2) := by
      rw [fdtpStep, hv]
      dsimp only
      rw [if_pos hvne]
    constructor
    · rw [hunf, hsplit, hstep]
      exact fdtp_fold_mem E l2 _ f (List.mem_append_right _ (by simp))
    · rw [hunf, hsplit, hstep, fdtp_fold_lookup E l2 _ f.name hl2]
      exact lookupS_setS_self f.name "Modified file" st1.2
  · intro v hv hveq
    have hstep : fdtpStep E st1 f = st1 := by
      rw [fdtpStep, hv]
      dsimp only
      rw [if_neg (by simp [hveq])]
    constructor
    · rw [hunf, hsplit, hstep]
      intro h1
      rcases fdtp_fold_provenance E l2 st1 f h1 with h2 | h2
      · exact hf1 h2
      · exact hg2 f h2 rfl
    · rw [hunf, hsplit, hstep, fdtp_fold_lookup E l2 st1 f.name hl2]
      exact hlk1

/-- C2 witness at a concrete input (one new file over an empty index). -/
theorem claim_c2_classification_witness :
    (([⟨"a.txt", "5"⟩] : List FileRec).map FileRec.name).Nodup ∧
      (⟨"a.txt", "5"⟩ : FileRec) ∈ ([⟨"a.txt", "5"⟩] : List FileRec) ∧
      ((lookupS "a.txt" (get_existing_documents []) = none →
          (⟨"a.txt", "5"⟩ : FileRec) ∈ (find_documents_to_process [⟨"a.txt", "5"⟩] []).1 ∧
          lookupS "a.txt" (find_documents_to_process [⟨"a.txt", "5"⟩] []).2 = some "New file") ∧
        (∀ v, lookupS "a.txt" (get_existing_documents []) = some v → v ≠ "5" →
          (⟨"a.txt", "5"⟩ : FileRec) ∈ (find_documents_to_process [⟨"a.txt", "5"⟩] []).1 ∧
          lookupS "a.txt" (find_documents_to_process [⟨"a.txt", "5"⟩] []).2 = some "Modified file") ∧
        (∀ v, lookupS "a.txt" (get_existing_documents []) = some v → v = "5" →
          (⟨"a.txt", "5"⟩ : FileRec) ∉ (find_documents_to_process [⟨"a.txt", "5"⟩] []).1 ∧
          lookupS "a.txt" (find_documents_to_process [⟨"a.txt", "5"⟩] []).2 = none)) :=
  ⟨by decide, by decide,
    claim_c2_classification [⟨"a.txt", "5"⟩] [] (by decide) ⟨"a.txt", "5"⟩ (by decide)⟩

/-- C2 counterexample index: one stored entry for `u.txt` whose metadata has
no top-level `last_modified` key, so its fingerprint reads back
`"unknown"`. -/
def c2idx : List Entry :=
  [⟨"u.txt_chunk_0", "x".data,
    [("source", "u.txt"), ("chunk_id", "u.txt_chunk_0"), ("metadata", "m")]⟩]

/-- C2 counterexample: the recorded fingerprint of `u.txt` is the unknown
marker, yet a file whose own fingerprint also reads `"unknown"` (a `stat`
failure) is skipped — an unknown recorded fingerprint does not force
reprocessing, contradicting the claim's parenthetical. -/
theorem claim_c2_cex :
    get_existing_documents c2idx = [("u.txt", "unknown")] ∧
      (find_documents_to_process [⟨"u.txt", "unknown"⟩] c2idx).1 = [] ∧
      (find_documents_to_process [⟨"u.txt", "unknown"⟩] c2idx).2 = [] := by
  refine ⟨by decide, by decide, by decide⟩

/-! ## Claim C7 -/

theorem stats_total_chunks (idx : List Entry) :
    (get_collection_stats idx).total_chunks = idx.length := by
  rw [get_collection_stats]
  by_cases h : idx.length = 0
  · rw [if_pos h]
    exact h.symm
  · rw [if_neg h]

/-- C7: when the collection reports zero chunks, `ask_question` returns the
fixed "no documents loaded" message and performs zero language-model calls
(neither the grounded path nor the fallback path is reached), for every
engine, model and set-enumeration oracle. -/
theorem claim_c7_empty_index (retr : String → Nat → List EngineHit)
    (llm : List LLMMsg → Except String String) (pyset : List String → List String)
    (idx : List Entry) (question : String) (include_sources : Bool)
    (h : (get_collection_stats idx).total_chunks = 0) :
    ask_question retr llm pyset idx question include_sources = ⟨noDocsMsg, 0⟩ := by
  simp only [ask_question]
  rw [if_pos h]

/-- C7 witness at a concrete input. -/
theorem claim_c7_empty_index_witness :
    (get_collection_stats ([] : List Entry)).total_chunks = 0 ∧
      ask_question (fun _ _ => []) (fun _ => Except.ok "hi") (fun xs => xs) [] "q" true =
        ⟨noDocsMsg, 0⟩ :=
  ⟨by decide,
    claim_c7_empty_index (fun _ _ => []) (fun _ => Except.ok "hi") (fun xs => xs) [] "q" true
      (by decide)⟩

/-! ## Claim C8 -/

/-- C8: `ask_question` never propagates a language-model exception: when
every model call raises (the oracle returns `Except.error e`), the returned
answer is still a plain string, prefixed with the error marker — on the
grounded path, the fallback path and the empty-index path alike. -/
theorem claim_c8_llm_failure_caught (retr : String → Nat → List EngineHit)
    (pyset : List String → List String) (idx : List Entry) (question : String)
    (include_sources : Bool) (e : String) (llm : List LLMMsg → Except String String)
    (hllm : ∀ ms, llm ms = Except.error e) :
    ∃ t, (ask_question retr llm pyset idx question include_sources).answer = "❌" ++ t := by
  have hgen : ∀ q c, generate_answer llm q c = "❌ Error generating answer: " ++ e := by
    intro q c
    rw [generate_answer, hllm]
  have hfall : ∀ q, fallback_answer llm q = "❌ Error: " ++ e := by
    intro q
    rw [fallback_answer, hllm]
  have hsplit1 : ("❌ Error generating answer: " : String) = "❌" ++ " Error generating answer: " := by
    decide
  have hsplit2 : ("❌ Error: " : String) = "❌" ++ " Error: " := by decide
  simp only [ask_question]
  by_cases h : (get_collection_stats idx).total_chunks = 0
  · rw [if_pos h]
    exact ⟨" No documents loaded. Please add documents to the \x27documents\x27 folder.",
      by decide⟩
  · rw [if_neg h]
    by_cases h2 : find_similar_chunks retr idx question MAX_RELEVANT_CHUNKS = []
    · rw [if_pos h2]
      refine ⟨" Error: " ++ e, ?_⟩
      show fallback_answer llm question = _
      rw [hfall, hsplit2, String.append_assoc]
    · rw [if_neg h2]
      cases include_sources with
      | false =>
          rw [if_neg (by simp)]
          refine ⟨" Error generating answer: " ++ e, ?_⟩
          show generate_answer llm question _ = _
          rw [hgen, hsplit1, String.append_assoc]
      | true =>
          rw [if_pos rfl]
          refine ⟨(" Error generating answer: " ++ e) ++ ("\n\n📚 **Sources:** " ++
            String.intercalate ", " (pyset ((find_similar_chunks retr idx question
              MAX_RELEVANT_CHUNKS).map (fun c => c.source)))), ?_⟩
          show generate_answer llm question _ ++ _ ++ _ = _
          rw [hgen, hsplit1]
          simp only [String.append_assoc]

/-- C8 witness at a concrete input. -/
theorem claim_c8_llm_failure_caught_witness :
    (∀ ms, (fun _ : List LLMMsg => (Except.error "boom" : Except String String)) ms =
        Except.error "boom") ∧
      ∃ t, (ask_question (fun _ _ => [⟨"i", "x".data, [("source", "a.txt")], 0⟩])
          (fun _ => Except.error "boom") (fun xs => xs)
          [⟨"i", "x".data, [("source", "a.txt")]⟩] "q" true).answer = "❌" ++ t :=
  ⟨fun _ => rfl,
    claim_c8_llm_failure_caught (fun _ _ => [⟨"i", "x".data, [("source", "a.txt")], 0⟩])
      (fun xs => xs) [⟨"i", "x".data, [("source", "a.txt")]⟩] "q" true "boom"
      (fun _ => Except.error "boom") (fun _ => rfl)⟩

/-! ## Claim C9 -/

/-- What Python guarantees about `list(set(xs))`: the result enumerates the
distinct elements of `xs` exactly once each — in an order the language does
not specify. -/
def PySetValid (f : List String → List String) : Prop :=
  ∀ xs, (f xs).Nodup ∧ ∀ a, a ∈ f xs ↔ a ∈ xs

theorem mem_dedupAux (l : List String) :
    ∀ (seen : List String) (a : String), a ∈ dedupAux seen l ↔ (a ∈ l ∧ a ∉ seen) := by
  induction l with
  | nil => intro seen a; simp [dedupAux]
  | cons x t ih =>
      intro seen a
      rw [dedupAux]
      by_cases hx : x ∈ seen
      · rw [if_pos hx, ih seen a]
        constructor
        · rintro ⟨h1, h2⟩
          exact ⟨List.mem_cons_of_mem x h1, h2⟩
        · rintro ⟨h1, h2⟩
          rcases List.mem_cons.mp h1 with rfl | h1
          · exact absurd hx h2
          · exact ⟨h1, h2⟩
      · rw [if_neg hx]
        constructor
        · intro h1
          rcases List.mem_cons.mp h1 with rfl | h1
          · exact ⟨List.mem_cons_self _ _, hx⟩
          · rcases (ih (x :: seen) a).mp h1 with ⟨h2, h3⟩
            exact ⟨List.mem_cons_of_mem x h2,
              fun h4 => h3 (List.mem_cons_of_mem x h4)⟩
        · rintro ⟨h1, h2⟩
          rcases List.mem_cons.mp h1 with rfl | h1
          · exact List.mem_cons_self _ _
          · by_cases hax : a = x
            · subst hax
              exact List.mem_cons_self _ _
            · refine List.mem_cons_of_mem x ((ih (x :: seen) a).mpr ⟨h1, ?_⟩)
              intro h3
              rcases List.mem_cons.mp h3 with h4 | h4
              · exact hax h4
              · exact h2 h4

theorem nodup_dedupAux (l : List String) : ∀ seen : List String, (dedupAux seen l).Nodup := by
  induction l with
  | nil => intro seen; simp [dedupAux]
  | cons x t ih =>
      intro seen
      rw [dedupAux]
      by_cases hx : x ∈ seen
      · rw [if_pos hx]
        exact ih seen
      · rw [if_neg hx]
        rw [List.nodup_cons]
        refine ⟨?_, ih (x :: seen)⟩
        intro h1
        exact ((mem_dedupAux t (x :: seen) x).mp h1).2 (List.mem_cons_self _ _)

/-- Reverse-then-dedup is one legitimate enumeration of a Python set. -/
theorem pySetValid_revDedup : PySetValid (fun xs => dedupFirst xs.reverse) := by
  intro xs
  refine ⟨nodup_dedupAux _ _, ?_⟩
  intro a
  show a ∈ dedupFirst xs.reverse ↔ a ∈ xs
  rw [dedupFirst, mem_dedupAux]
  simp

/-- C9 amended: when retrieval is non-empty and `include_sources` is set, the
answer is the generated answer followed by the joined source list produced by
the `list(set(...))` enumeration: each retrieved source appears exactly once
(deduplicated), but the order is whatever the set enumeration yields — Python
does not specify it, so first-occurrence (retrieval-order) stability is not
guaranteed. -/
theorem claim_c9_sources_dedup (retr : String → Nat → List EngineHit)
    (llm : List LLMMsg → Except String String) (pyset : List String → List String)
    (idx : List Entry) (q : String) (hval : PySetValid pyset)
    (hne : find_similar_chunks retr idx q MAX_RELEVANT_CHUNKS ≠ []) :
    (ask_question retr llm pyset idx q true).answer =
        generate_answer llm q
            (build_context (find_similar_chunks retr idx q MAX_RELEVANT_CHUNKS)) ++
          "\n\n📚 **Sources:** " ++
          String.intercalate ", "
            (pyset ((find_similar_chunks retr idx q MAX_RELEVANT_CHUNKS).map
              (fun c => c.source))) ∧
      (pyset ((find_similar_chunks retr idx q MAX_RELEVANT_CHUNKS).map
        (fun c => c.source))).Nodup ∧
      ∀ a, a ∈ pyset ((find_similar_chunks retr idx q MAX_RELEVANT_CHUNKS).map
          (fun c => c.source)) ↔
        a ∈ (find_similar_chunks retr idx q MAX_RELEVANT_CHUNKS).map (fun c => c.source) := by
  have hidx : ¬ (get_collection_stats idx).total_chunks = 0 := by
    intro h0
    rw [stats_total_chunks] at h0
    exact hne (by rw [find_similar_chunks, if_pos h0])
  refine ⟨?_, (hval _).1, (hval _).2⟩
  simp only [ask_question]
  rw [if_neg hidx, if_neg hne]
  simp

/-- C9 amended witness at a concrete input. -/
theorem claim_c9_sources_dedup_witness :
    PySetValid (fun xs => dedupFirst xs.reverse) ∧
      find_similar_chunks (fun _ _ => [⟨"i", "x".data, [("source", "a.txt")], 0⟩])
          [⟨"i", "x".data, [("source", "a.txt")]⟩] "q" MAX_RELEVANT_CHUNKS ≠ [] ∧
      ((ask_question (fun _ _ => [⟨"i", "x".data, [("source", "a.txt")], 0⟩])
            (fun _ => Except.ok "ANS") (fun xs => dedupFirst xs.reverse)
            [⟨"i", "x".data, [("source", "a.txt")]⟩] "q" true).answer =
          generate_answer (fun _ => Except.ok "ANS") "q"
              (build_context (find_similar_chunks
                (fun _ _ => [⟨"i", "x".data, [("source", "a.txt")], 0⟩])
                [⟨"i", "x".data, [("source", "a.txt")]⟩] "q" MAX_RELEVANT_CHUNKS)) ++
            "\n\n📚 **Sources:** " ++
            String.intercalate ", "
              ((fun xs => dedupFirst xs.reverse) ((find_similar_chunks
                (fun _ _ => [⟨"i", "x".data, [("source", "a.txt")], 0⟩])
                [⟨"i", "x".data, [("source", "a.txt")]⟩] "q" MAX_RELEVANT_CHUNKS).map
                  (fun c => c.source))) ∧
        ((fun xs => dedupFirst xs.reverse) ((find_similar_chunks
          (fun _ _ => [⟨"i", "x".data, [("source", "a.txt")], 0⟩])
          [⟨"i", "x".data, [("source", "a.txt")]⟩] "q" MAX_RELEVANT_CHUNKS).map
            (fun c => c.source))).Nodup ∧
        ∀ a, a ∈ (fun xs => dedupFirst xs.reverse) ((find_similar_chunks
            (fun _ _ => [⟨"i", "x".data, [("source", "a.txt")], 0⟩])
            [⟨"i", "x".data, [("source", "a.txt")]⟩] "q" MAX_RELEVANT_CHUNKS).map
              (fun c => c.source)) ↔
          a ∈ (find_similar_chunks (fun _ _ => [⟨"i", "x".data, [("source", "a.txt")], 0⟩])
            [⟨"i", "x".data, [("source", "a.txt")]⟩] "q" MAX_RELEVANT_CHUNKS).map
              (fun c => c.source)) :=
  ⟨pySetValid_revDedup, by decide,
    claim_c9_sources_dedup (fun _ _ => [⟨"i", "x".data, [("source", "a.txt")], 0⟩])
      (fun _ => Except.ok "ANS") (fun xs => dedupFirst xs.reverse)
      [⟨"i", "x".data, [("source", "a.txt")]⟩] "q" pySetValid_revDedup (by decide)⟩

/-- C9 counterexample oracles: an index and engine returning two chunks whose
sources are, in descending-similarity order, `a.txt` then `b.txt`; a model
that answers `"ANS"`; and the reverse-order set enumeration, which is a
legitimate `list(set(...))` result. -/
def c9retr : String → Nat → List EngineHit := fun _ _ =>
  [⟨"a.txt_chunk_0", "xx".data, [("source", "a.txt")], 0⟩,
    ⟨"b.txt_chunk_0", "yy".data, [("source", "b.txt")], 0⟩]

/-- C9 counterexample index (two entries, two sources). -/
def c9idx : List Entry :=
  [⟨"a", "x".data, [("source", "a.txt")]⟩, ⟨"b", "y".data, [("source", "b.txt")]⟩]

/-- C9 counterexample: the retrieved sources in first-occurrence order are
`a.txt, b.txt`, yet with a legitimate set enumeration the answer carries
`b.txt, a.txt` — the appended list is deduplicated but not order-stable. -/
theorem claim_c9_cex :
    PySetValid (fun xs => dedupFirst xs.reverse) ∧
      (find_similar_chunks c9retr c9idx "q" MAX_RELEVANT_CHUNKS).map (fun c => c.source) =
        ["a.txt", "b.txt"] ∧
      (ask_question c9retr (fun _ => Except.ok "ANS") (fun xs => dedupFirst xs.reverse)
          c9idx "q" true).answer = "ANS\n\n📚 **Sources:** b.txt, a.txt" ∧
      ("ANS\n\n📚 **Sources:** b.txt, a.txt" : String) ≠
        "ANS\n\n📚 **Sources:** a.txt, b.txt" :=
  ⟨pySetValid_revDedup, by decide, by decide, by decide⟩

end RAG
